import Mathlib

/-!
A shallow embedding of the affine-analysis core of the repository
(`src/mlir/lib/Analysis/LoopAnalysis.cpp` and the affine-ops file
`src/unnamed/part_000`, which is `AffineOps.cpp`), together with proofs
about the embedded operations.

Machine integers (`int64_t`, `uint64_t`) are modelled as `Int`/`Nat` with
explicit reduction modulo `2^64` exactly where the source casts between
them.  IR objects (values, operations, regions) are modelled as inductive
trees: SSA def-use graphs are acyclic, so every value is fully described
by its defining operation's tree of operands, and pointer equality of
distinct SSA values is modelled by structural equality of trees carrying
explicit identifiers.
-/

namespace MLIR

/-! ## Affine expressions and maps

Modelled from the spec: the affine-expression data model (`AffineExpr.cpp`
is not under `src/`): immutable trees over dimension references, symbol
references and `int64` constants, combined by add, multiply-by-constant,
floor-division, ceil-division and modulo by a constant (spec §3). -/

inductive AffineExpr where
  | dim (i : Nat)
  | sym (i : Nat)
  | const (c : Int)
  | add (a b : AffineExpr)
  | mul (a : AffineExpr) (c : Int)
  | floorDiv (a : AffineExpr) (c : Int)
  | ceilDivE (a : AffineExpr) (c : Int)
  | modE (a : AffineExpr) (c : Int)
deriving DecidableEq, Repr

/-- Modelled from the spec: `ceilDiv` of `mlir/Support/MathExtras.h` is not
under `src/`: mathematical ceiling division (for a positive divisor),
expressed through Euclidean division. -/
def ceilDiv (a b : Int) : Int := -((-a).ediv b)

/-- Modelled from the spec: simplification-on-construction of affine
expressions (`AffineExpr.cpp` is not under `src/`): an operator applied to
constant operands folds to a constant (spec §3's constant terms and the
canonicalization examples of §8). -/
def addE : AffineExpr → AffineExpr → AffineExpr
  | .const a, .const b => .const (a + b)
  | a, b => .add a b

/-- Modelled from the spec: constant folding of multiply-by-constant on
construction. -/
def mulE : AffineExpr → Int → AffineExpr
  | .const a, c => .const (a * c)
  | a, c => .mul a c

/-- Modelled from the spec: constant folding of floor-division on
construction. -/
def floorDivE : AffineExpr → Int → AffineExpr
  | .const a, c => .const (a.ediv c)
  | a, c => .floorDiv a c

/-- Modelled from the spec: constant folding of ceil-division on
construction. -/
def ceilDivSmart : AffineExpr → Int → AffineExpr
  | .const a, c => .const (ceilDiv a c)
  | a, c => .ceilDivE a c

/-- Modelled from the spec: constant folding of modulo on construction. -/
def modSmart : AffineExpr → Int → AffineExpr
  | .const a, c => .const (a.emod c)
  | a, c => .modE a c

/-- An affine map: `(numDims, numSymbols, results)` (spec §3). -/
structure AffineMap where
  numDims : Nat
  numSyms : Nat
  results : List AffineExpr
deriving DecidableEq, Repr

/-- Modelled from the spec: `AffineExpr::replaceDimsAndSymbols` is not under
`src/`: substitute replacement expressions for dimension and symbol
references, rebuilding interior nodes with the simplifying constructors; a
position with no replacement entry keeps its original reference. -/
def replaceDS (dRepl sRepl : List (Option AffineExpr)) : AffineExpr → AffineExpr
  | .dim i => (((dRepl.get? i).bind id).getD (.dim i))
  | .sym i => (((sRepl.get? i).bind id).getD (.sym i))
  | .const c => .const c
  | .add a b => addE (replaceDS dRepl sRepl a) (replaceDS dRepl sRepl b)
  | .mul a c => mulE (replaceDS dRepl sRepl a) c
  | .floorDiv a c => floorDivE (replaceDS dRepl sRepl a) c
  | .ceilDivE a c => ceilDivSmart (replaceDS dRepl sRepl a) c
  | .modE a c => modSmart (replaceDS dRepl sRepl a) c

/-- `AffineMap::replaceDimsAndSymbols` with explicit new dim/symbol counts. -/
def AffineMap.replaceDimsAndSymbols (m : AffineMap)
    (dRepl sRepl : List (Option AffineExpr)) (nd ns : Nat) : AffineMap :=
  ⟨nd, ns, m.results.map (replaceDS dRepl sRepl)⟩

/-- Shift all dimension references up by `k` (`AffineMap::shiftDims`). -/
def shiftDimsE (k : Nat) : AffineExpr → AffineExpr
  | .dim i => .dim (i + k)
  | .sym i => .sym i
  | .const c => .const c
  | .add a b => .add (shiftDimsE k a) (shiftDimsE k b)
  | .mul a c => .mul (shiftDimsE k a) c
  | .floorDiv a c => .floorDiv (shiftDimsE k a) c
  | .ceilDivE a c => .ceilDivE (shiftDimsE k a) c
  | .modE a c => .modE (shiftDimsE k a) c

/-- Shift all symbol references up by `k` (`AffineMap::shiftSymbols`). -/
def shiftSymsE (k : Nat) : AffineExpr → AffineExpr
  | .dim i => .dim i
  | .sym i => .sym (i + k)
  | .const c => .const c
  | .add a b => .add (shiftSymsE k a) (shiftSymsE k b)
  | .mul a c => .mul (shiftSymsE k a) c
  | .floorDiv a c => .floorDiv (shiftSymsE k a) c
  | .ceilDivE a c => .ceilDivE (shiftSymsE k a) c
  | .modE a c => .modE (shiftSymsE k a) c

/-- Whether the expression references dimension `i`
(`AffineExpr::isFunctionOfDim`). -/
def exprUsesDim (i : Nat) : AffineExpr → Bool
  | .dim j => j = i
  | .sym _ => false
  | .const _ => false
  | .add a b => exprUsesDim i a || exprUsesDim i b
  | .mul a _ => exprUsesDim i a
  | .floorDiv a _ => exprUsesDim i a
  | .ceilDivE a _ => exprUsesDim i a
  | .modE a _ => exprUsesDim i a

/-- Whether the expression references symbol `i`
(`AffineExpr::isFunctionOfSymbol`). -/
def exprUsesSym (i : Nat) : AffineExpr → Bool
  | .dim _ => false
  | .sym j => j = i
  | .const _ => false
  | .add a b => exprUsesSym i a || exprUsesSym i b
  | .mul a _ => exprUsesSym i a
  | .floorDiv a _ => exprUsesSym i a
  | .ceilDivE a _ => exprUsesSym i a
  | .modE a _ => exprUsesSym i a

/-- Substitute `repl` for every occurrence of the subexpression `target`
(`AffineExpr::replace`), rebuilding with the simplifying constructors. -/
def substExpr (target repl : AffineExpr) (e : AffineExpr) : AffineExpr :=
  if e = target then repl
  else
    match e with
    | .add a b => addE (substExpr target repl a) (substExpr target repl b)
    | .mul a c => mulE (substExpr target repl a) c
    | .floorDiv a c => floorDivE (substExpr target repl a) c
    | .ceilDivE a c => ceilDivSmart (substExpr target repl a) c
    | .modE a c => modSmart (substExpr target repl a) c
    | e => e

/-- `AffineMap::replace(toReplace, composeExpr, numDims, numSyms)`. -/
def AffineMap.replaceExpr (m : AffineMap) (target repl : AffineExpr)
    (nd ns : Nat) : AffineMap :=
  ⟨nd, ns, m.results.map (substExpr target repl)⟩

/-- Modelled from the spec: `simplifyAffineMap` is not under `src/`:
algebraic simplification of each result, modelled as re-folding constant
subexpressions through the simplifying constructors. -/
def simplifyAffineMap (m : AffineMap) : AffineMap :=
  ⟨m.numDims, m.numSyms, m.results.map (replaceDS [] [])⟩

/-- `Builder::getMultiDimIdentityMap`. -/
def multiDimIdentityMap (n : Nat) : AffineMap :=
  ⟨n, 0, (List.range n).map .dim⟩

/-- Modelled from the spec: `AffineExpr::getLargestKnownDivisor` is not
under `src/`: the expression's largest known integral divisor, read off its
multiplicative structure (spec §4.3). -/
def largestKnownDivisor : AffineExpr → Nat
  | .const c => c.natAbs
  | .dim _ => 1
  | .sym _ => 1
  | .add a b => Nat.gcd (largestKnownDivisor a) (largestKnownDivisor b)
  | .mul a c => largestKnownDivisor a * c.natAbs
  | .floorDiv _ _ => 1
  | .ceilDivE _ _ => 1
  | .modE _ _ => 1

/-- Modelled from the spec: `getFlattenedAffineExpr` is not under `src/`:
the linear dimension/symbol coefficients and constant term of an affine
expression, laid out as dims, then symbols, then the constant.
Floor/ceil-division and modulo subexpressions are carried by local columns
in the real flattener and therefore contribute zero to every
dimension/symbol column modelled here. -/
def flattenCoeffs (nd ns : Nat) : AffineExpr → List Int
  | .dim i => (List.range (nd + ns + 1)).map (fun j => if j = i then 1 else 0)
  | .sym i => (List.range (nd + ns + 1)).map (fun j => if j = nd + i then 1 else 0)
  | .const c => (List.range (nd + ns + 1)).map (fun j => if j = nd + ns then c else 0)
  | .add a b => List.zipWith (· + ·) (flattenCoeffs nd ns a) (flattenCoeffs nd ns b)
  | .mul a c => (flattenCoeffs nd ns a).map (· * c)
  | .floorDiv _ _ => List.replicate (nd + ns + 1) 0
  | .ceilDivE _ _ => List.replicate (nd + ns + 1) 0
  | .modE _ _ => List.replicate (nd + ns + 1) 0

/-! ## IR model: regions, operations, values

Regions are modelled by their upward parent chain: a region carries an
identifier and, when attached, the traits of its owning operation
(`IsIsolatedFromAbove`, `AffineScope`, whether it is an `affine.for` /
`affine.parallel`) together with the region containing that operation. -/

inductive Region where
  /-- A region whose owning operation is null (unattached IR). -/
  | orphan (rid : Nat)
  /-- A region owned by an operation that itself lives in no region. -/
  | rootChild (rid : Nat) (isolated affineScope loopLike : Bool)
  /-- A region owned by an operation contained in `parent`. -/
  | child (rid : Nat) (isolated affineScope loopLike : Bool) (parent : Region)
deriving DecidableEq, Repr

/-! An SSA value is either a block argument or the result of an operation;
operations carry the region that contains them and their kind, with the
operand values nested inside (the def-use graph is acyclic, so a value is
fully described by this tree).  `isIndexTy` records whether the value's
type is the designated `index` type; the identifiers distinguish values
the analysis does not otherwise inspect. -/

mutual
inductive Value where
  | blockArg (isIndexTy : Bool) (parentRegion : Option Region) (argId : Nat)
  | opResult (isIndexTy : Bool) (parentRegion : Option Region) (kind : OpKind)
inductive OpKind where
  | constantOp (val : Int)
  | applyOp (map : AffineMap) (operands : ValueList)
  | dimOp (memrefOrTensor : Value) (constIdx : Nat)
  | memrefDefOp (dynFlags : List Bool) (dynSizes : ValueList)
  | otherOp (opId : Nat)
inductive ValueList where
  | nil
  | cons (v : Value) (vs : ValueList)
end

mutual
def beqV : Value → Value → Bool
  | .blockArg i r a, .blockArg i' r' a' => decide (i = i' ∧ r = r' ∧ a = a')
  | .opResult i r k, .opResult i' r' k' => decide (i = i' ∧ r = r') && beqK k k'
  | .blockArg _ _ _, .opResult _ _ _ => false
  | .opResult _ _ _, .blockArg _ _ _ => false
def beqK : OpKind → OpKind → Bool
  | .constantOp c, .constantOp c' => decide (c = c')
  | .applyOp m o, .applyOp m' o' => decide (m = m') && beqL o o'
  | .dimOp v c, .dimOp v' c' => beqV v v' && decide (c = c')
  | .memrefDefOp f s, .memrefDefOp f' s' => decide (f = f') && beqL s s'
  | .otherOp n, .otherOp n' => decide (n = n')
  | _, _ => false
def beqL : ValueList → ValueList → Bool
  | .nil, .nil => true
  | .cons v vs, .cons w ws => beqV v w && beqL vs ws
  | .nil, .cons _ _ => false
  | .cons _ _, .nil => false
end

mutual
theorem beqV_iff : (a b : Value) → (beqV a b = true ↔ a = b)
  | .blockArg i r x, b => by cases b <;> simp [beqV]
  | .opResult i r k, b => by
    cases b with
    | blockArg => simp [beqV]
    | opResult i' r' k' => simp [beqV, beqK_iff k k', and_assoc]
theorem beqK_iff : (a b : OpKind) → (beqK a b = true ↔ a = b)
  | .constantOp c, b => by cases b <;> simp [beqK]
  | .applyOp m o, b => by
    cases b with
    | applyOp m' o' => simp [beqK, beqL_iff o o']
    | _ => simp [beqK]
  | .dimOp v c, b => by
    cases b with
    | dimOp v' c' => simp [beqK, beqV_iff v v']
    | _ => simp [beqK]
  | .memrefDefOp f s, b => by
    cases b with
    | memrefDefOp f' s' => simp [beqK, beqL_iff s s']
    | _ => simp [beqK]
  | .otherOp n, b => by cases b <;> simp [beqK]
theorem beqL_iff : (a b : ValueList) → (beqL a b = true ↔ a = b)
  | .nil, b => by cases b <;> simp [beqL]
  | .cons v vs, b => by
    cases b with
    | nil => simp [beqL]
    | cons w ws => simp [beqL, beqV_iff v w, beqL_iff vs ws]
end

instance : DecidableEq Value := fun a b => decidable_of_iff _ (beqV_iff a b)

instance : DecidableEq OpKind := fun a b => decidable_of_iff _ (beqK_iff a b)

instance : DecidableEq ValueList := fun a b => decidable_of_iff _ (beqL_iff a b)

/-- The value's type is the `index` type. -/
def Value.isIndex : Value → Bool
  | .blockArg b _ _ => b
  | .opResult b _ _ => b

/-- The region containing the value: for a block argument the region of its
owning block, for an operation result the region containing the defining
operation (`Value::getParentRegion`). -/
def Value.parentRegion : Value → Option Region
  | .blockArg _ r _ => r
  | .opResult _ r _ => r

def ValueList.toList : ValueList → List Value
  | .nil => []
  | .cons v vs => v :: vs.toList

def ValueList.length : ValueList → Nat
  | .nil => 0
  | .cons _ vs => vs.length + 1

/-! ## Scope and legality analyzer (`src/unnamed/part_000`, lines 223-419) -/

/-- The traits of the region's owning operation:
`(isolated, affineScope, loopLike)`, absent when there is no owner. -/
def Region.ownerTraits : Region → Option (Bool × Bool × Bool)
  | .orphan _ => none
  | .rootChild _ a b c => some (a, b, c)
  | .child _ a b c _ => some (a, b, c)

/-- `mlir::isTopLevelValue(Value)` (lines 227-238): the value's parent
operation exists and has the `AffineScope` trait. -/
def isTopLevelValue1 (v : Value) : Bool :=
  match v.parentRegion with
  | some r =>
    match r.ownerTraits with
    | some (_, scope, _) => scope
    | none => false
  | none => false

/-- `isTopLevelValue(Value, Region*)` (lines 34-39): the value is defined at
the top level of `region` or is one of its arguments. -/
def isTopLevelValue2 (v : Value) (reg : Region) : Bool :=
  v.parentRegion = some reg

/-- `getAffineScope` (lines 243-251) on a region (the parent region of the
starting operation): the closest enclosing region held by an operation with
the `AffineScope` trait. -/
def getAffineScopeR : Region → Option Region
  | .orphan _ => none
  | .rootChild rid iso scope lp =>
    if scope then some (.rootChild rid iso scope lp) else none
  | .child rid iso scope lp p =>
    if scope then some (.child rid iso scope lp p) else getAffineScopeR p

/-- `getAffineScope` (lines 243-251), starting from an operation's
(possibly absent) parent region. -/
def getAffineScope : Option Region → Option Region
  | none => none
  | some r => getAffineScopeR r

/-- The upward walk shared by the block-argument and default cases of
`mlir::isValidSymbol(Value, Region*)` (lines 385-396 and 412-418): at each
region, a top-level value is a symbol; otherwise step to the region of the
owning operation's parent, provided the owner exists, is not
`IsIsolatedFromAbove`, and has a parent region. -/
def symbolWalkR (v : Value) (r : Region) : Bool :=
  if v.parentRegion = some r then true
  else
    match r with
    | .child _ iso _ _ p => if iso then false else symbolWalkR v p
    | _ => false

/-- `symbolWalkR` lifted to a possibly-absent (`nullptr`) region. -/
def symbolWalk (v : Value) : Option Region → Bool
  | none => false
  | some r => symbolWalkR v r

mutual
/-- `mlir::isValidSymbol(Value, Region*)` (lines 379-419), with the region
possibly absent (`nullptr`). -/
def isValidSymbol2 (v : Value) (r : Option Region) : Bool :=
  if !v.isIndex then false
  else if (match r with | some reg => isTopLevelValue2 v reg | none => false) then true
  else
    match v with
    | .blockArg _ _ _ => symbolWalk v r
    | .opResult _ _ k =>
      match k with
      | .constantOp _ => true
      | .applyOp _ ops => allValidSymbol2 ops r
      | .dimOp mr ci => isDimOpValidSymbol2 mr ci r
      | .memrefDefOp _ _ => symbolWalk v r
      | .otherOp _ => symbolWalk v r

/-- `AffineApplyOp::isValidSymbol(Region*)` (lines 554-558): all operands
are valid symbols for the region. -/
def allValidSymbol2 (vs : ValueList) (r : Option Region) : Bool :=
  match vs with
  | .nil => true
  | .cons v vs => isValidSymbol2 v r && allValidSymbol2 vs r

/-- `isDimOpValidSymbol` (lines 322-343): top-level memref/tensor, or a
view/subview/alloc-produced memref whose queried size is a valid symbol;
block-argument memrefs are conservatively rejected. -/
def isDimOpValidSymbol2 (mr : Value) (i : Nat) (r : Option Region) : Bool :=
  if isTopLevelValue1 mr then true
  else
    match mr with
    | .blockArg _ _ _ => false
    | .opResult _ _ k =>
      match k with
      | .memrefDefOp dynFlags dynSizes =>
        -- `isMemRefSizeValidSymbol` (lines 309-319): statically shaped
        -- dimensions qualify; a dynamic one defers to its size operand,
        -- located by its position among the dynamic dimensions.
        if !(dynFlags.getD i false) then true
        else nthValidSymbol2 dynSizes ((dynFlags.take i).count true) r
      | _ => false

/-- `isValidSymbol2` of the `k`-th element of a value list (the dynamic-size
operand selected by `getDynamicDimIndex`); absent positions are rejected. -/
def nthValidSymbol2 (vs : ValueList) (k : Nat) (r : Option Region) : Bool :=
  match vs, k with
  | .nil, _ => false
  | .cons v _, 0 => isValidSymbol2 v r
  | .cons _ vs, k + 1 => nthValidSymbol2 vs k r
end

mutual
/-- `mlir::isValidDim(Value, Region*)` (lines 278-303): index type, then any
valid symbol qualifies; a block argument qualifies when owned by an
`affine.for`/`affine.parallel`; an apply result when all its operands are
valid dims; a dim-op result when its memref/tensor is top level. -/
def isValidDim2 (v : Value) (r : Option Region) : Bool :=
  if !v.isIndex then false
  else if isValidSymbol2 v r then true
  else
    match v with
    | .blockArg _ pr _ =>
      match pr with
      | some reg =>
        match reg.ownerTraits with
        | some (_, _, loopLike) => loopLike
        | none => false
      | none => false
    | .opResult _ _ k =>
      match k with
      | .applyOp _ ops => allValidDim2 ops r
      | .dimOp mr _ => isTopLevelValue1 mr
      | _ => false

/-- `AffineApplyOp::isValidDim(Region*)` (lines 540-543): all operands are
valid dims for the region. -/
def allValidDim2 (vs : ValueList) (r : Option Region) : Bool :=
  match vs with
  | .nil => true
  | .cons v vs => isValidDim2 v r && allValidDim2 vs r
end

/-- `mlir::isValidSymbol(Value)` (lines 353-366): the scope-free symbol
predicate — index type, then top-level values, then (for op results) the
region-relative predicate at the value's own affine scope. -/
def isValidSymbol1 (v : Value) : Bool :=
  if !v.isIndex then false
  else if isTopLevelValue1 v then true
  else
    match v with
    | .opResult _ pr _ => isValidSymbol2 v (getAffineScope pr)
    | .blockArg _ _ _ => false

/-! ## Map/operand canonicalization (`src/unnamed/part_000`, lines 711-836)

The source functions are templates over `AffineMap`/`IntegerSet`; the
embedding instantiates them at `AffineMap`. -/

instance : Inhabited Value := ⟨.blockArg false none 0⟩

/-- `matchPattern(defOp, m_Constant(&attr))`: the value of a
constant-producing defining operation. -/
def getConstVal : Value → Option Int
  | .opResult _ _ (.constantOp c) => some c
  | _ => none

/-- The per-dimension loop of `canonicalizePromotedSymbols` (lines 731-744)
over the dimension-bound operands, threading `nextDim`/`nextSym` and
returning the dimension remapping, the kept dimension operands, the
promoted operands, and the final counters. -/
def promoteGo (oldSyms : Nat) :
    List Value → Nat → Nat →
    (List AffineExpr × List Value × List Value × Nat × Nat)
  | [], nextDim, nextSym => ([], [], [], nextDim, nextSym)
  | v :: vs, nextDim, nextSym =>
    if isValidSymbol1 v then
      let (remap, kept, prom, nd, ns) := promoteGo oldSyms vs nextDim (nextSym + 1)
      (.sym (oldSyms + nextSym) :: remap, kept, v :: prom, nd, ns)
    else
      let (remap, kept, prom, nd, ns) := promoteGo oldSyms vs (nextDim + 1) nextSym
      (.dim nextDim :: remap, v :: kept, prom, nd, ns)

/-- `canonicalizePromotedSymbols` (lines 713-753): every dimension position
whose operand satisfies the scope-free symbol predicate is rewritten to a
freshly appended symbol; the promoted operands move to the symbol tail and
the surviving dimensions are renumbered densely. -/
def canonicalizePromotedSymbols (m : AffineMap) (operands : List Value) :
    AffineMap × List Value :=
  if operands.isEmpty then (m, operands)
  else
    let dimOps := operands.take m.numDims
    let symOps := operands.drop m.numDims
    let (remap, kept, prom, nextDim, nextSym) := promoteGo m.numSyms dimOps 0 0
    (m.replaceDimsAndSymbols (remap.map some) [] nextDim (m.numSyms + nextSym),
     kept ++ symOps ++ prom)

/-- Association lookup in the `seenDims`/`seenSymbols` maps. -/
def lookupSeen (seen : List (Value × AffineExpr)) (v : Value) : Option AffineExpr :=
  match seen with
  | [] => none
  | (w, e) :: rest => if w = v then some e else lookupSeen rest v

/-- The dimension pass of `canonicalizeMapOrSetAndOperands` (lines 786-800):
unused positions are dropped, duplicate operands are merged to the first
occurrence, survivors are renumbered densely. -/
def dimPassGo (operands : List Value) (used : Nat → Bool) :
    List Nat → List (Value × AffineExpr) → Nat →
    (List (Option AffineExpr) × List Value × Nat)
  | [], _, next => ([], [], next)
  | i :: rest, seen, next =>
    if used i then
      let v := operands.getD i default
      match lookupSeen seen v with
      | some e =>
        let (remap, ops, nf) := dimPassGo operands used rest seen next
        (some e :: remap, ops, nf)
      | none =>
        let (remap, ops, nf) :=
          dimPassGo operands used rest ((v, .dim next) :: seen) (next + 1)
        (some (.dim next) :: remap, v :: ops, nf)
    else
      let (remap, ops, nf) := dimPassGo operands used rest seen next
      (none :: remap, ops, nf)

/-- The symbol pass of `canonicalizeMapOrSetAndOperands` (lines 801-827):
like the dimension pass, but a symbol operand bound to a compile-time
constant is folded to a literal constant expression and dropped. -/
def symPassGo (numDims : Nat) (operands : List Value) (used : Nat → Bool) :
    List Nat → List (Value × AffineExpr) → Nat →
    (List (Option AffineExpr) × List Value × Nat)
  | [], _, next => ([], [], next)
  | i :: rest, seen, next =>
    if used i then
      let v := operands.getD (numDims + i) default
      match getConstVal v with
      | some c =>
        let (remap, ops, nf) := symPassGo numDims operands used rest seen next
        (some (.const c) :: remap, ops, nf)
      | none =>
        match lookupSeen seen v with
        | some e =>
          let (remap, ops, nf) := symPassGo numDims operands used rest seen next
          (some e :: remap, ops, nf)
        | none =>
          let (remap, ops, nf) :=
            symPassGo numDims operands used rest ((v, .sym next) :: seen) (next + 1)
          (some (.sym next) :: remap, v :: ops, nf)
    else
      let (remap, ops, nf) := symPassGo numDims operands used rest seen next
      (none :: remap, ops, nf)

/-- `canonicalizeMapOrSetAndOperands` instantiated at `AffineMap`
(lines 757-836): symbol promotion, then dead-position elimination,
duplicate merging and symbol constant folding, rebuilding the map with
the dense renumbering.  The function returns the new pair and no
success/failure signal, exactly as the `void` source does. -/
def canonicalizeMapAndOperands (m : AffineMap) (operands : List Value) :
    AffineMap × List Value :=
  if operands.isEmpty then (m, operands)
  else
    let pr := canonicalizePromotedSymbols m operands
    let m1 := pr.1
    let ops1 := pr.2
    let usedDim := fun i => m1.results.any (exprUsesDim i)
    let usedSym := fun i => m1.results.any (exprUsesSym i)
    let (dimRemap, dimOps, nextDim) :=
      dimPassGo ops1 usedDim (List.range m1.numDims) [] 0
    let (symRemap, symOps, nextSym) :=
      symPassGo m1.numDims ops1 usedSym (List.range m1.numSyms) [] 0
    (m1.replaceDimsAndSymbols dimRemap symRemap nextDim nextSym,
     dimOps ++ symOps)

/-! ## Apply-composition (`src/unnamed/part_000`, lines 587-699) -/

mutual
def valSize : Value → Nat
  | .blockArg _ _ _ => 1
  | .opResult _ _ k => 1 + kindSize k
def kindSize : OpKind → Nat
  | .constantOp _ => 1
  | .applyOp _ ops => 1 + vlSize ops
  | .dimOp v _ => 1 + valSize v
  | .memrefDefOp _ s => 1 + vlSize s
  | .otherOp _ => 1
def vlSize : ValueList → Nat
  | .nil => 0
  | .cons v vs => valSize v + vlSize vs
end

def slotSize : Option Value → Nat
  | none => 0
  | some v => valSize v

def sumSlots (l : List (Option Value)) : Nat := (l.map slotSize).sum

/-- `v.getDefiningOp<AffineApplyOp>()`: the map and operands of the apply
operation defining `v`, when there is one. -/
def asApply : Value → Option (AffineMap × ValueList)
  | .opResult _ _ (.applyOp m ops) => some (m, ops)
  | _ => none

/-- `replaceDimOrSym` (lines 587-625): when the slot at `pos` (dimensions
first, then symbols) holds a value defined by an apply operation, nullify
the slot, substitute the apply's index-shifted result expression for the
slot's dim/symbol reference throughout the map, and append the apply's
dimension and symbol operands to the working lists. -/
def replaceDimOrSym (m : AffineMap) (pos : Nat)
    (dims syms : List (Option Value)) :
    Option (AffineMap × List (Option Value) × List (Option Value)) :=
  let isDimR := pos < dims.length
  let p := if isDimR then pos else pos - dims.length
  match (if isDimR then dims.getD p none else syms.getD p none) with
  | none => none
  | some v =>
    match asApply v with
    | none => none
    | some (cm, ops) =>
      let composeExpr :=
        shiftSymsE syms.length (shiftDimsE dims.length (cm.results.getD 0 (.const 0)))
      let composeDims := (ops.toList.take cm.numDims).map some
      let composeSyms := (ops.toList.drop cm.numDims).map some
      let target : AffineExpr := if isDimR then .dim p else .sym p
      some (m.replaceExpr target composeExpr dims.length syms.length,
            (if isDimR then dims.set p none else dims) ++ composeDims,
            (if isDimR then syms else syms.set p none) ++ composeSyms)

/-- One scan of the `for` loop of `composeAffineMapAndOperands`
(lines 649-656): the first position whose replacement succeeds. -/
def findReplace (m : AffineMap) (dims syms : List (Option Value)) :
    Option (AffineMap × List (Option Value) × List (Option Value)) :=
  (List.range (dims.length + syms.length)).findSome?
    (fun pos => replaceDimOrSym m pos dims syms)

theorem sumSlots_append (a b : List (Option Value)) :
    sumSlots (a ++ b) = sumSlots a + sumSlots b := by
  simp [sumSlots]

theorem slotSize_comp_some : slotSize ∘ some = valSize :=
  funext (fun _ => rfl)

theorem sumSlots_map_some (l : List Value) :
    sumSlots (l.map some) = (l.map valSize).sum := by
  simp [sumSlots, List.map_map, slotSize_comp_some]

theorem sumSlots_set_none (l : List (Option Value)) (p : Nat) (v : Value)
    (h : l.getD p none = some v) :
    sumSlots (l.set p none) + valSize v = sumSlots l := by
  induction l generalizing p with
  | nil => simp [List.getD] at h
  | cons a rest ih =>
    cases p with
    | zero =>
      have ha : a = some v := by simpa [List.getD] using h
      subst ha
      simp [sumSlots, List.set, slotSize]
      omega
    | succ q =>
      have h' : rest.getD q none = some v := by simpa [List.getD] using h
      have := ih q h'
      simp only [List.set, sumSlots, List.map_cons, List.sum_cons] at this ⊢
      omega

theorem vlSize_toList : (ops : ValueList) →
    (ops.toList.map valSize).sum = vlSize ops
  | .nil => by simp [ValueList.toList, vlSize]
  | .cons v vs => by simp [ValueList.toList, vlSize, vlSize_toList vs]

theorem sumSlots_take_drop (ops : ValueList) (k : Nat) :
    sumSlots ((ops.toList.take k).map some) +
      sumSlots ((ops.toList.drop k).map some) = vlSize ops := by
  rw [sumSlots_map_some, sumSlots_map_some, ← vlSize_toList ops,
    ← List.sum_append, ← List.map_append, List.take_append_drop]

theorem asApply_size (v : Value) (cm : AffineMap) (ops : ValueList)
    (h : asApply v = some (cm, ops)) : valSize v = vlSize ops + 2 := by
  cases v with
  | blockArg i r a => simp [asApply] at h
  | opResult b pr k =>
    cases k with
    | applyOp cm2 ops2 =>
      simp only [asApply, Option.some.injEq, Prod.mk.injEq] at h
      obtain ⟨-, h2⟩ := h
      subst h2
      rw [valSize, kindSize]
      omega
    | constantOp c => simp [asApply] at h
    | dimOp w ci => simp [asApply] at h
    | memrefDefOp f s => simp [asApply] at h
    | otherOp n => simp [asApply] at h

theorem replaceDimOrSym_decreases (m : AffineMap) (pos : Nat)
    (dims syms : List (Option Value)) (m' : AffineMap)
    (dims' syms' : List (Option Value))
    (h : replaceDimOrSym m pos dims syms = some (m', dims', syms')) :
    sumSlots dims' + sumSlots syms' < sumSlots dims + sumSlots syms := by
  unfold replaceDimOrSym at h
  by_cases hd : pos < dims.length
  · simp only [hd, if_true] at h
    rcases hslot : dims.getD pos none with - | v
    · rw [hslot] at h; simp at h
    · simp only [hslot] at h
      rcases happ : asApply v with - | ⟨cm, ops⟩
      · simp only [happ] at h; exact Option.noConfusion h
      simp only [happ] at h
      simp only [Option.some.injEq, Prod.mk.injEq] at h
      obtain ⟨-, hdims, hsyms⟩ := h
      have hset := sumSlots_set_none dims pos v hslot
      have hv := asApply_size v cm ops happ
      have htd := sumSlots_take_drop ops cm.numDims
      subst hdims hsyms
      rw [sumSlots_append, sumSlots_append]
      omega
  · simp only [hd, if_false] at h
    rcases hslot : syms.getD (pos - dims.length) none with - | v
    · rw [hslot] at h; simp at h
    · simp only [hslot] at h
      rcases happ : asApply v with - | ⟨cm, ops⟩
      · simp only [happ] at h; exact Option.noConfusion h
      simp only [happ] at h
      simp only [Option.some.injEq, Prod.mk.injEq] at h
      obtain ⟨-, hdims, hsyms⟩ := h
      have hset := sumSlots_set_none syms (pos - dims.length) v hslot
      have hv := asApply_size v cm ops happ
      have htd := sumSlots_take_drop ops cm.numDims
      subst hdims hsyms
      rw [sumSlots_append, sumSlots_append]
      omega

theorem findReplace_decreases (m : AffineMap) (dims syms : List (Option Value))
    (m' : AffineMap) (dims' syms' : List (Option Value))
    (h : findReplace m dims syms = some (m', dims', syms')) :
    sumSlots dims' + sumSlots syms' < sumSlots dims + sumSlots syms := by
  obtain ⟨pos, -, hp⟩ := List.exists_of_findSome?_eq_some h
  exact replaceDimOrSym_decreases m pos dims syms m' dims' syms' hp

/-- The substitution fixpoint of `composeAffineMapAndOperands`
(lines 649-656): restart the scan after every successful replacement until
no position can be replaced. -/
def composeLoop (m : AffineMap) (dims syms : List (Option Value)) :
    AffineMap × List (Option Value) × List (Option Value) :=
  match h : findReplace m dims syms with
  | none => (m, dims, syms)
  | some (m', dims', syms') => composeLoop m' dims' syms'
termination_by sumSlots dims + sumSlots syms
decreasing_by exact findReplace_decreases m dims syms m' dims' syms' h

/-- The null-slot pruning of `composeAffineMapAndOperands` (lines 663-683):
nullified slots are replaced by the constant `0` expression, survivors are
renumbered densely and their values collected as the new operands. -/
def pruneGo (mk : Nat → AffineExpr) :
    List (Option Value) → Nat → (List (Option AffineExpr) × List Value × Nat)
  | [], n => ([], [], n)
  | none :: rest, n =>
    let (repl, ops, nf) := pruneGo mk rest n
    (some (.const 0) :: repl, ops, nf)
  | some v :: rest, n =>
    let (repl, ops, nf) := pruneGo mk rest (n + 1)
    (some (mk n) :: repl, v :: ops, nf)

/-- `composeAffineMapAndOperands` (lines 630-690): a result-less map is only
canonicalized and simplified; otherwise apply-defined operands are inlined
to a fixpoint, null slots pruned, and the result canonicalized and
simplified. -/
def composeAffineMapAndOperands (m : AffineMap) (operands : List Value) :
    AffineMap × List Value :=
  if m.results.length = 0 then
    let c := canonicalizeMapAndOperands m operands
    (simplifyAffineMap c.1, c.2)
  else
    let dims := (operands.take m.numDims).map some
    let syms := (operands.drop m.numDims).map some
    let (m1, dims1, syms1) := composeLoop m dims syms
    let (dimRepl, dimOps, nDims) := pruneGo .dim dims1 0
    let (symRepl, symOps, nSyms) := pruneGo .sym syms1 0
    let m2 := m1.replaceDimsAndSymbols dimRepl symRepl nDims nSyms
    let c := canonicalizeMapAndOperands m2 (dimOps ++ symOps)
    (simplifyAffineMap c.1, c.2)

/-- An affine map together with the values bound to its inputs. -/
structure AffineValueMap where
  map : AffineMap
  operands : List Value
deriving DecidableEq

/-- `AffineValueMap::canonicalize` (`src/unnamed/part_000`, lines
2858-2866): run `composeAffineMapAndOperands` on a copy; if nothing
changed, return failure (`false` here) and keep the pair; otherwise reset
to the new pair and return success (`true`). -/
def AffineValueMap.canonicalize (avm : AffineValueMap) : Bool × AffineValueMap :=
  let c := composeAffineMapAndOperands avm.map avm.operands
  if c.1 = avm.map ∧ c.2 = avm.operands then (false, avm) else (true, ⟨c.1, c.2⟩)

/-! ## Trip counts and divisors
(`src/mlir/lib/Analysis/LoopAnalysis.cpp`, lines 33-146) -/

/-- `std::numeric_limits<uint64_t>::max()`. -/
def U64MAX : Nat := 2 ^ 64 - 1

/-- `static_cast<uint64_t>` of an `int64_t` value: reduction modulo
`2^64`. -/
def toU64 (c : Int) : Nat := (c % (2 ^ 64 : Int)).toNat

/-- The bounds of an `affine.for`: either both single compile-time
constants (`hasConstantBounds`), or bound maps with their operands. -/
inductive LoopBounds where
  | constant (lb ub : Int)
  | mapped (lbMap ubMap : AffineMap) (lbOperands ubOperands : List Value)

/-- An `affine.for` operation, as consumed by the trip-count analyses. -/
structure ForOp where
  step : Int
  bounds : LoopBounds

/-- `buildTripCountMapAndOperands` (lines 33-78): `none` models the null
`AffineMap()` result.  With constant bounds the result is a zero-input
constant map of `ceilDiv(max(0, ub-lb), step)` with the operands cleared;
with a multi-result lower bound there is no trip-count map; otherwise each
upper-bound result minus the single lower-bound result, ceil-divided by the
step.  The general branch's `AffineValueMap::difference` is not under
`src/` and is modelled from the spec: the two bound maps' input spaces are
concatenated (upper-bound inputs first), skipping the composition and
canonicalization the source difference additionally performs. -/
def buildTripCountMapAndOperands : ForOp → Option (AffineMap × List Value)
  | ⟨step, .constant lb ub⟩ =>
    some (⟨0, 0, [.const (ceilDiv (if ub - lb < 0 then 0 else ub - lb) step)]⟩, [])
  | ⟨step, .mapped lbMap ubMap lbOps ubOps⟩ =>
    if lbMap.results.length ≠ 1 then none
    else
      let l := shiftSymsE ubMap.numSyms
        (shiftDimsE ubMap.numDims (lbMap.results.getD 0 (.const 0)))
      some (⟨ubMap.numDims + lbMap.numDims, ubMap.numSyms + lbMap.numSyms,
             ubMap.results.map (fun e => ceilDivSmart (addE e (mulE l (-1))) step)⟩,
            ubOps.take ubMap.numDims ++ lbOps.take lbMap.numDims ++
              ubOps.drop ubMap.numDims ++ lbOps.drop lbMap.numDims)

/-- `dyn_cast<AffineConstantExpr>`. -/
def asConst : AffineExpr → Option Int
  | .const c => some c
  | _ => none

/-- The fold of `getConstantTripCount` (lines 96-106): take the running
minimum of the constant results (as `uint64_t`), bailing out to `none` on
the first non-constant result. -/
def constMinFold : List AffineExpr → Option Nat → Option Nat
  | [], acc => acc
  | e :: es, acc =>
    match asConst e with
    | some c =>
      constMinFold es
        (some (match acc with | none => toU64 c | some t => min t (toU64 c)))
    | none => none

/-- `getConstantTripCount` (lines 87-108). -/
def getConstantTripCount (f : ForOp) : Option Nat :=
  match buildTripCountMapAndOperands f with
  | none => none
  | some (m, _) => constMinFold m.results none

/-- The fold of `getLargestDivisorOfTripCount` (lines 124-145): per result,
the constant itself as `uint64_t` (or `2^64 - 1` when that is zero, for a
vacuous loop), else the expression's largest known divisor; accumulate the
GCD.  The empty-result case is guarded by an assert in the source; `1` is
returned for it here. -/
def gcdGo : List AffineExpr → Option Nat → Nat
  | [], acc => acc.getD 1
  | e :: es, acc =>
    let thisGcd :=
      match asConst e with
      | some c => if toU64 c = 0 then U64MAX else toU64 c
      | none => largestKnownDivisor e
    gcdGo es (some (match acc with | none => thisGcd | some g => Nat.gcd g thisGcd))

/-- `getLargestDivisorOfTripCount` (lines 113-146): `1` when no trip-count
map exists. -/
def getLargestDivisorOfTripCount (f : ForOp) : Nat :=
  match buildTripCountMapAndOperands f with
  | none => 1
  | some (m, _) => gcdGo m.results none

/-- The per-result divisor of `getLargestDivisorOfTripCount`
(lines 126-138), written as a standalone function. -/
def perResultDivisor (e : AffineExpr) : Nat :=
  match asConst e with
  | some c => if toU64 c = 0 then U64MAX else toU64 c
  | none => largestKnownDivisor e

/-! ## Access invariance
(`src/mlir/lib/Analysis/LoopAnalysis.cpp`, lines 163-185) -/

/-! Modelled from the spec: `getReachableAffineApplyOps` (in
`AffineAnalysis.cpp`, not under `src/`) traces the apply operations
reachable from a value through the operands of apply operations. -/

mutual
def reachApps : Value → List (AffineMap × ValueList)
  | .blockArg _ _ _ => []
  | .opResult _ _ k => reachAppsK k
def reachAppsK : OpKind → List (AffineMap × ValueList)
  | .applyOp m ops => (m, ops) :: reachAppsL ops
  | .constantOp _ => []
  | .dimOp _ _ => []
  | .memrefDefOp _ _ => []
  | .otherOp _ => []
def reachAppsL : ValueList → List (AffineMap × ValueList)
  | .nil => []
  | .cons v vs => reachApps v ++ reachAppsL vs
end

/-- The first operand position bound to `v` (`AffineValueMap::findIndex`). -/
def firstIdxOf (v : Value) : ValueList → Option Nat
  | .nil => none
  | .cons w ws => if w = v then some 0 else (firstIdxOf v ws).map (· + 1)

/-- Modelled from the spec: `AffineValueMap::isFunctionOf(idx, value)` is
not under `src/`: whether result `idx` of the value map is a non-trivial
function of `value`, located at its first operand position and read as a
dimension reference. -/
def isFunctionOfVM (mp : AffineMap) (ops : ValueList) (resIdx : Nat)
    (v : Value) : Bool :=
  match firstIdxOf v ops with
  | none => false
  | some j => exprUsesDim j (mp.results.getD resIdx (.const 0))

/-- `isAccessIndexInvariant` (lines 163-185).  The first component is the
returned boolean; the second records whether the multi-apply diagnostic
remark was emitted.  Every branch returns a value: the function is total
and never raises an error. -/
def isAccessIndexInvariant (iv index : Value) : Bool × Bool :=
  match reachApps index with
  | [] => (decide (index ≠ iv), false)
  | [(m, ops)] => (!(isFunctionOfVM m ops 0 iv), false)
  | _ => (false, true)

/-! ## Access contiguity
(`src/mlir/lib/Analysis/LoopAnalysis.cpp`, lines 252-328)

The embedding covers the case in which no other `affine.for` uses `iv` as
a bound operand: the dependent-loop recursion of lines 308-325 then visits
nothing and the function is exactly its per-dimension loop. -/

/-- An affine load/store as consumed by `isContiguousAccess`: the accessed
memref's rank and layout maps, the access map, and its operands. -/
structure MemOp where
  rank : Nat
  layoutMaps : List AffineMap
  accessMap : AffineMap
  mapOperands : List Value

/-- The operand position bound to `iv` as computed by lines 281-289: the
scan remembers the last matching position. -/
def lastIdxOf (v : Value) : List Value → Option Nat
  | [] => none
  | w :: ws =>
    match lastIdxOf v ws with
    | some j => some (j + 1)
    | none => if w = v then some 0 else none

/-- The coefficient `flat[pos]` of `iv` in result `i` of the access map
(lines 277-291): flatten the result expression over the map's
dimension/symbol inputs and read the column of the operand position bound
to `iv`; `0` when `iv` is not an operand (`pos == -1`). -/
def ivCoeff (iv : Value) (mo : MemOp) (i : Nat) : Int :=
  match lastIdxOf iv mo.mapOperands with
  | none => 0
  | some p =>
    (flattenCoeffs mo.accessMap.numDims mo.accessMap.numSyms
      (mo.accessMap.results.getD i (.const 0))).getD p 0

/-- The per-dimension loop of `isContiguousAccess` (lines 270-301),
threading `uniqueVaryingIndexAlongIv` (`-1` = none yet). -/
def contigLoop (cf : Nat → Int) : List Nat → Int → Option Int
  | [], unique => some unique
  | i :: rest, unique =>
    if cf i > 0 then
      if unique ≠ -1 then none
      else if cf i > 1 then none
      else contigLoop cf rest i
    else contigLoop cf rest unique

/-- `isContiguousAccess` (lines 252-328) in the absence of dependent loops:
`none` models returning `false`; `some d` models returning `true` with
`*memRefDim = d` (`-1` = invariant along `iv`).  A memref with two or more
layout maps, or a single non-identity one, is rejected up front. -/
def isContiguousAccess (iv : Value) (mo : MemOp) : Option Int :=
  if mo.layoutMaps.length ≥ 2 ∨
      (mo.layoutMaps.length = 1 ∧
        mo.layoutMaps.getD 0 (multiDimIdentityMap 0) ≠
          multiDimIdentityMap
            ((mo.layoutMaps.getD 0 (multiDimIdentityMap 0)).numDims)) then
    none
  else
    match contigLoop (ivCoeff iv mo) (List.range mo.rank) (-1) with
    | none => none
    | some unique =>
      some (if unique = -1 then -1 else (mo.rank : Int) - (unique + 1))

/-- The spec's reading of contiguity (§4.3, §8), stated declaratively over
the same coefficient function: the varying dimensions are those with
positive coefficient; two varying dimensions or a coefficient above one
disqualify; otherwise the verdict is the invariant sentinel or
`rank - (i + 1)` for the unique varying dimension `i`. -/
def contiguousSpec (iv : Value) (mo : MemOp) : Option Int :=
  if mo.layoutMaps.length ≥ 2 ∨
      (mo.layoutMaps.length = 1 ∧
        mo.layoutMaps.getD 0 (multiDimIdentityMap 0) ≠
          multiDimIdentityMap
            ((mo.layoutMaps.getD 0 (multiDimIdentityMap 0)).numDims)) then
    none
  else
    let cf := ivCoeff iv mo
    let varying := (List.range mo.rank).filter (fun i => cf i > 0)
    if 2 ≤ varying.length ∨ varying.any (fun i => cf i > 1) then none
    else
      match varying with
      | [] => some (-1)
      | i :: _ => some ((mo.rank : Int) - (i + 1))

/-! ## Shift-schedule validity
(`src/mlir/lib/Analysis/LoopAnalysis.cpp`, lines 422-455)

The loop body is a list of top-level operations, each an operation tree:
`uses` lists the top-level producer indices whose results the operation
consumes, and `children` holds its nested operations.
`findAncestorOpInBlock` of an in-body user is the root of the body subtree
containing it, so the users-with-ancestors of producer `p` are exactly the
roots whose subtree mentions `p`; a use from outside the body has no
ancestor in the block (modelled by `outsideUses`) and is skipped. -/

mutual
inductive OpTree where
  | mk (uses : List Nat) (children : OpForest)
inductive OpForest where
  | nil
  | cons (t : OpTree) (rest : OpForest)
end

instance : Inhabited OpTree := ⟨.mk [] .nil⟩

mutual
def treeUses : OpTree → List Nat
  | .mk us cs => us ++ forestUses cs
def forestUses : OpForest → List Nat
  | .nil => []
  | .cons t rest => treeUses t ++ forestUses rest
end

/-- The ancestors (in-block root indices, or `none` for out-of-block users)
of the users of producer `p`'s results. -/
def ancUsers (body : List OpTree) (outsideUses : List Nat) (p : Nat) :
    List (Option Nat) :=
  ((List.range body.length).filter
      (fun a => p ∈ treeUses (body.getD a default))).map some ++
    (outsideUses.filter (fun q => q = p)).map (fun _ => none)

/-- Lookup in the `forBodyShift` map; a missing key yields the
default-constructed `0` (`DenseMap::operator[]`), a case the source guards
with an assert. -/
def lookupShift (acc : List (Nat × Nat)) (a : Nat) : Nat :=
  match acc with
  | [] => 0
  | (i, s) :: rest => if i = a then s else lookupShift rest a

/-- The backwards walk of `isOpwiseShiftValid` (lines 428-453): process
index `k - 1` after all higher indices, record its shift, then require
every in-block ancestor of its results' users to carry the same shift. -/
def shiftGo (body : List OpTree) (outsideUses : List Nat)
    (shifts : List Nat) : Nat → List (Nat × Nat) → Bool
  | 0, _ => true
  | k + 1, acc =>
    if (ancUsers body outsideUses k).all
        (fun anc =>
          match anc with
          | none => true
          | some a => shifts.getD k 0 = lookupShift ((k, shifts.getD k 0) :: acc) a) then
      shiftGo body outsideUses shifts k ((k, shifts.getD k 0) :: acc)
    else false

/-- `isOpwiseShiftValid` (lines 422-455). -/
def isOpwiseShiftValid (body : List OpTree) (outsideUses : List Nat)
    (shifts : List Nat) : Bool :=
  shiftGo body outsideUses shifts body.length []

/-! ## Helper lemmas for the trip-count claims -/

theorem gcdGo_some (l : List AffineExpr) (g : Nat) :
    gcdGo l (some g) = (l.map perResultDivisor).foldl Nat.gcd g := by
  induction l generalizing g with
  | nil => simp [gcdGo]
  | cons e es ih => simp only [gcdGo, perResultDivisor, List.map_cons, List.foldl_cons, ih]

/-- The minimum across a list (`none` when empty). -/
def minU64 : List Nat → Option Nat
  | [] => none
  | x :: xs => some (xs.foldl min x)

/-- The integer constants of a result list, when every result is one. -/
def allConsts : List AffineExpr → Option (List Int)
  | [] => some []
  | e :: es =>
    match asConst e with
    | some c => (allConsts es).map (c :: ·)
    | none => none

theorem constMinFold_some (l : List AffineExpr) (t : Nat) :
    constMinFold l (some t) =
      (allConsts l).map (fun cs => (cs.map toU64).foldl min t) := by
  induction l generalizing t with
  | nil => simp [constMinFold, allConsts]
  | cons e es ih =>
    cases he : asConst e with
    | none => simp [constMinFold, allConsts, he]
    | some c =>
      simp only [constMinFold, allConsts, he, ih, Option.map_map]
      cases allConsts es <;> simp [List.foldl]

/-! ## Claims C3, C4, C5, C10 -/

/-- C3: when the loop's bounds are both single compile-time constants,
`buildTripCountMapAndOperands` returns a zero-input constant map of value
`ceilDiv(max(0, ub - lb), step)` with an empty operand list; in particular
lower 0, upper 10, step 1 gives trip count 10, step 3 gives 4, and
lower 5, upper 2, step 1 gives 0. -/
theorem c3_constant_bounds_trip_count :
    (∀ lb ub step : Int,
      buildTripCountMapAndOperands ⟨step, .constant lb ub⟩ =
        some (⟨0, 0, [.const (ceilDiv (max 0 (ub - lb)) step)]⟩, [])) ∧
    getConstantTripCount ⟨1, .constant 0 10⟩ = some 10 ∧
    getConstantTripCount ⟨3, .constant 0 10⟩ = some 4 ∧
    getConstantTripCount ⟨1, .constant 5 2⟩ = some 0 := by
  refine ⟨fun lb ub step => ?_, by decide, by decide, by decide⟩
  have hmax : (if ub - lb < 0 then (0 : Int) else ub - lb) = max 0 (ub - lb) := by
    split <;> omega
  rw [buildTripCountMapAndOperands, hmax]

/-- C4: `getLargestDivisorOfTripCount` is the GCD of the per-result
divisors (the constant itself as `uint64_t` when a result folds to a
nonzero constant, `2^64 - 1` when it folds to zero, and the expression's
largest known divisor otherwise); a loop with lower = upper = 0 yields the
maximum representable unsigned value. -/
theorem c4_largest_divisor_gcd :
    (∀ (f : ForOp) (m : AffineMap) (ops : List Value),
      buildTripCountMapAndOperands f = some (m, ops) → m.results ≠ [] →
      getLargestDivisorOfTripCount f =
        (m.results.map perResultDivisor).foldl Nat.gcd 0) ∧
    getLargestDivisorOfTripCount ⟨1, .constant 0 0⟩ = U64MAX := by
  constructor
  · intro f m ops hb hne
    simp only [getLargestDivisorOfTripCount, hb]
    cases hres : m.results with
    | nil => exact absurd hres hne
    | cons e es =>
      simp only [gcdGo]
      rw [gcdGo_some]
      simp [perResultDivisor, Nat.gcd_zero_left]
  · decide

/-- Witness for C4 at the vacuous loop `lower = upper = 0`. -/
theorem c4_witness :
    getLargestDivisorOfTripCount ⟨1, .constant 0 0⟩ =
      (([AffineExpr.const 0]).map perResultDivisor).foldl Nat.gcd 0 :=
  c4_largest_divisor_gcd.1 ⟨1, .constant 0 0⟩ ⟨0, 0, [.const 0]⟩ []
    (by decide) (by decide)

theorem constMinFold_none (l : List AffineExpr) :
    constMinFold l none =
      (allConsts l).bind (fun cs => minU64 (cs.map toU64)) := by
  cases l with
  | nil => simp [constMinFold, allConsts, minU64]
  | cons e es =>
    cases he : asConst e with
    | none => simp [constMinFold, allConsts, he]
    | some c =>
      simp only [constMinFold, he, constMinFold_some, allConsts]
      cases hcs : allConsts es with
      | none => simp [hcs]
      | some cs => simp [hcs, minU64]

/-- C5: `getConstantTripCount` returns the minimum (as `uint64_t`) across
the trip-count map's results exactly when every result is an integer
constant, and the unknown sentinel `none` when some result is non-constant
or no trip-count map exists; it is a total function. -/
theorem c5_constant_trip_count (f : ForOp) :
    getConstantTripCount f =
      match buildTripCountMapAndOperands f with
      | none => none
      | some (m, _) =>
        (allConsts m.results).bind (fun cs => minU64 (cs.map toU64)) := by
  rw [getConstantTripCount]
  cases buildTripCountMapAndOperands f with
  | none => rfl
  | some p =>
    obtain ⟨m, ops⟩ := p
    show constMinFold m.results none =
      (allConsts m.results).bind (fun cs => minU64 (cs.map toU64))
    exact constMinFold_none m.results

/-- C10: when no trip-count map can be built — in particular whenever the
bounds are not both constant and the lower-bound map has a number of
results other than one — `getLargestDivisorOfTripCount` returns exactly
`1`, the unknown-divisor sentinel. -/
theorem c10_unknown_divisor_sentinel :
    (∀ f : ForOp, buildTripCountMapAndOperands f = none →
      getLargestDivisorOfTripCount f = 1) ∧
    (∀ (lbMap ubMap : AffineMap) (lbOps ubOps : List Value) (step : Int),
      lbMap.results.length ≠ 1 →
      buildTripCountMapAndOperands ⟨step, .mapped lbMap ubMap lbOps ubOps⟩ =
        none) := by
  constructor
  · intro f h
    rw [getLargestDivisorOfTripCount, h]
  · intro lbMap ubMap lbOps ubOps step h
    simp [buildTripCountMapAndOperands, h]

/-- Witness for C10: a two-result lower-bound map yields divisor 1. -/
theorem c10_witness :
    getLargestDivisorOfTripCount
      ⟨1, .mapped ⟨0, 0, [.const 0, .const 1]⟩ ⟨0, 0, [.const 5]⟩ [] []⟩ = 1 :=
  c10_unknown_divisor_sentinel.1 _
    (c10_unknown_divisor_sentinel.2 ⟨0, 0, [.const 0, .const 1]⟩
      ⟨0, 0, [.const 5]⟩ [] [] 1 (by decide))

/-! ## Claim C7 -/

/-- C7: for every value and every (possibly absent) scope, a valid symbol
is a valid dimension at the same scope. -/
theorem c7_symbol_implies_dim (v : Value) (r : Option Region)
    (h : isValidSymbol2 v r = true) : isValidDim2 v r = true := by
  have hidx : v.isIndex = true := by
    cases hv : v.isIndex
    · rw [isValidSymbol2.eq_def, hv] at h
      simp at h
    · rfl
  rw [isValidDim2.eq_def, hidx, h]
  simp

/-- Witness for C7 at a constant-defined value with the absent scope. -/
theorem c7_witness :
    isValidSymbol2 (.opResult true none (.constantOp 5)) none = true ∧
    isValidDim2 (.opResult true none (.constantOp 5)) none = true :=
  ⟨by decide, c7_symbol_implies_dim (.opResult true none (.constantOp 5)) none
    (by decide)⟩

/-! ## Claim C2 -/

/-- C2: the access-invariance check of one index operand: with no
reachable apply the result is `true` exactly when the operand is not
literally `iv`; with exactly one reachable apply the result is `true`
exactly when that apply's value map is not a non-trivial function of `iv`
at result position 0; with more than one the result is `false` and the
diagnostic remark is emitted.  Every case returns a pair: no error is ever
raised. -/
theorem c2_invariance_cases (iv index : Value) :
    (reachApps index = [] →
      isAccessIndexInvariant iv index = (decide (index ≠ iv), false)) ∧
    (∀ m ops, reachApps index = [(m, ops)] →
      isAccessIndexInvariant iv index = (!(isFunctionOfVM m ops 0 iv), false)) ∧
    (2 ≤ (reachApps index).length →
      isAccessIndexInvariant iv index = (false, true)) := by
  refine ⟨fun h => ?_, fun m ops h => ?_, fun h => ?_⟩
  · rw [isAccessIndexInvariant, h]
  · rw [isAccessIndexInvariant, h]
  · rw [isAccessIndexInvariant]
    cases hr : reachApps index with
    | nil => rw [hr] at h; simp at h
    | cons x rest =>
      cases rest with
      | nil => rw [hr] at h; simp at h
      | cons y rest2 => rfl

/-- Witness for C2: an apply-of-apply index has two reachable applies, so
the check returns `false` and emits the remark. -/
theorem c2_witness :
    isAccessIndexInvariant (.blockArg true none 0)
      (.opResult true none (.applyOp ⟨1, 0, [.dim 0]⟩
        (.cons (.opResult true none (.applyOp ⟨1, 0, [.dim 0]⟩
          (.cons (.blockArg true none 7) .nil))) .nil))) = (false, true) :=
  (c2_invariance_cases (.blockArg true none 0) _).2.2 (by decide)

/-! ## Claim C1 -/

theorem contigLoop_ne (cf : Nat → Int) (l : List Nat) (u : Int) (hu : u ≠ -1) :
    contigLoop cf l u =
      if l.filter (fun i => cf i > 0) = [] then some u else none := by
  induction l with
  | nil => simp [contigLoop]
  | cons i rest ih =>
    by_cases hc : cf i > 0
    · simp [contigLoop, hc, hu, List.filter_cons]
    · simp [contigLoop, hc, ih, List.filter_cons]

theorem contigLoop_neg1 (cf : Nat → Int) (l : List Nat) :
    contigLoop cf l (-1) =
      (if 2 ≤ (l.filter (fun i => cf i > 0)).length ∨
          (l.filter (fun i => cf i > 0)).any (fun i => cf i > 1) then none
       else
         match l.filter (fun i => cf i > 0) with
         | [] => some (-1)
         | i :: _ => some (i : Int)) := by
  induction l with
  | nil => simp [contigLoop]
  | cons j rest ih =>
    by_cases hc : cf j > 0
    · have hfil : (j :: rest).filter (fun i => cf i > 0) =
          j :: rest.filter (fun i => cf i > 0) :=
        List.filter_cons_of_pos (by simpa using hc)
      rw [hfil]
      by_cases hc1 : cf j > 1
      · rw [contigLoop, if_pos hc, if_neg (show ¬((-1 : Int) ≠ -1) by simp),
          if_pos hc1, if_pos (Or.inr ?hany)]
        case hany =>
          rw [List.any_cons]
          simp only [Bool.or_eq_true, decide_eq_true_eq]
          exact Or.inl hc1
      · have hj : (j : Int) ≠ -1 := by omega
        rw [contigLoop, if_pos hc, if_neg (show ¬((-1 : Int) ≠ -1) by simp),
          if_neg hc1, contigLoop_ne cf rest (j : Int) hj]
        by_cases hrest : rest.filter (fun i => cf i > 0) = []
        · rw [if_pos hrest, hrest, if_neg ?hcnd]
          case hcnd =>
            rw [List.any_cons]
            simp [hc1]
        · rw [if_neg hrest, if_pos (Or.inl ?hlen)]
          case hlen =>
            cases hlist : rest.filter (fun i => cf i > 0) with
            | nil => exact absurd hlist hrest
            | cons a b => simp
    · have hfil : (j :: rest).filter (fun i => cf i > 0) =
          rest.filter (fun i => cf i > 0) :=
        List.filter_cons_of_neg (by simpa using hc)
      rw [hfil, contigLoop, if_neg hc, ih]

/-- C1 (amended): `isContiguousAccess` agrees with the declarative reading
in which a result dimension is varying exactly when the coefficient of
`iv` is strictly positive, two varying dimensions or a positive
coefficient above one disqualify the access, and negative coefficients are
ignored. -/
theorem c1_contiguity_amended (iv : Value) (mo : MemOp) :
    isContiguousAccess iv mo = contiguousSpec iv mo := by
  rw [isContiguousAccess, contiguousSpec]
  by_cases hg : mo.layoutMaps.length ≥ 2 ∨
      (mo.layoutMaps.length = 1 ∧
        mo.layoutMaps.getD 0 (multiDimIdentityMap 0) ≠
          multiDimIdentityMap
            ((mo.layoutMaps.getD 0 (multiDimIdentityMap 0)).numDims))
  · rw [if_pos hg, if_pos hg]
  · rw [if_neg hg, if_neg hg, contigLoop_neg1]
    by_cases hcond : 2 ≤ ((List.range mo.rank).filter
          (fun i => ivCoeff iv mo i > 0)).length ∨
        ((List.range mo.rank).filter (fun i => ivCoeff iv mo i > 0)).any
          (fun i => ivCoeff iv mo i > 1)
    · rw [if_pos hcond, if_pos hcond]
    · rw [if_neg hcond, if_neg hcond]
      cases hf : (List.range mo.rank).filter (fun i => ivCoeff iv mo i > 0) with
      | nil => rfl
      | cons i rest =>
        show some (if (i : Int) = -1 then -1 else _) = _
        rw [if_neg (show ¬((i : Int) = -1) by omega)]

/-- Counterexample for C1 as stated: in the access map
`(d0, d1) -> (d0, d1 * (-2))` with `iv` bound to `d1`, the coefficient of
`iv` in result dimension 1 is `-2` — nonzero, of magnitude other than one —
yet `isContiguousAccess` records no varying dimension and returns `true`
with the invariant verdict `-1`: the code tests `flat[pos] > 0` and
`flat[pos] > 1`, not nonzeroness and magnitude. -/
theorem c1_contiguity_counterexample :
    ivCoeff (.blockArg true none 0)
      ⟨2, [], ⟨2, 0, [.dim 0, .mul (.dim 1) (-2)]⟩,
       [.blockArg true none 1, .blockArg true none 0]⟩ 1 = -2 ∧
    isContiguousAccess (.blockArg true none 0)
      ⟨2, [], ⟨2, 0, [.dim 0, .mul (.dim 1) (-2)]⟩,
       [.blockArg true none 1, .blockArg true none 0]⟩ = some (-1) := by
  decide

/-! ## Claim C9 -/

theorem shiftGo_iff (body : List OpTree) (outside : List Nat)
    (shifts : List Nat)
    (hdom : ∀ p a, a < body.length → p ∈ treeUses (body.getD a default) →
      p ≤ a) :
    ∀ (k : Nat) (acc : List (Nat × Nat)), k ≤ body.length →
    (∀ a, k ≤ a → a < body.length → lookupShift acc a = shifts.getD a 0) →
    (shiftGo body outside shifts k acc = true ↔
      ∀ p a, p < k → a < body.length → p ∈ treeUses (body.getD a default) →
        shifts.getD p 0 = shifts.getD a 0)
  | 0, acc, _, _ => by
    constructor
    · intro _ p a hp
      omega
    · intro _
      rfl
  | k + 1, acc, hk, hinv => by
    have hinv' : ∀ a, k ≤ a → a < body.length →
        lookupShift ((k, shifts.getD k 0) :: acc) a = shifts.getD a 0 := by
      intro a hka han
      by_cases hak : k = a
      · subst hak
        simp [lookupShift]
      · rw [lookupShift, if_neg hak]
        exact hinv a (by omega) han
    have hchk : ((ancUsers body outside k).all
          (fun anc =>
            match anc with
            | none => true
            | some a =>
              decide (shifts.getD k 0 =
                lookupShift ((k, shifts.getD k 0) :: acc) a)) = true) ↔
        (∀ a, a < body.length → k ∈ treeUses (body.getD a default) →
          shifts.getD k 0 = shifts.getD a 0) := by
      rw [List.all_eq_true]
      constructor
      · intro h a han hmem
        have hmm : (some a) ∈ ancUsers body outside k := by
          rw [ancUsers]
          refine List.mem_append_left _ ?_
          exact List.mem_map_of_mem some
            (List.mem_filter.mpr
              ⟨List.mem_range.mpr han, by simpa using hmem⟩)
        have hh := h (some a) hmm
        rw [decide_eq_true_eq] at hh
        rw [hh]
        exact hinv' a (hdom k a han hmem) han
      · intro h anc hanc
        match anc with
        | none => rfl
        | some a =>
          rw [ancUsers] at hanc
          rcases List.mem_append.mp hanc with h1 | h2
          · obtain ⟨b, hb, hba⟩ := List.mem_map.mp h1
            obtain ⟨hbr, hbm⟩ := List.mem_filter.mp hb
            have hba' : b = a := by simpa using hba
            subst hba'
            have han := List.mem_range.mp hbr
            have hmem : k ∈ treeUses (body.getD b default) := by
              simpa using hbm
            rw [decide_eq_true_eq, hinv' b (hdom k b han hmem) han]
            exact h b han hmem
          · obtain ⟨b, -, hba⟩ := List.mem_map.mp h2
            exact absurd hba (by simp)
    rw [shiftGo]
    by_cases hc : ((ancUsers body outside k).all
        (fun anc =>
          match anc with
          | none => true
          | some a =>
            decide (shifts.getD k 0 =
              lookupShift ((k, shifts.getD k 0) :: acc) a)) = true)
    · rw [if_pos hc,
        shiftGo_iff body outside shifts hdom k ((k, shifts.getD k 0) :: acc)
          (by omega) hinv']
      constructor
      · intro h p a hp han hmem
        by_cases hpk : p = k
        · subst hpk
          exact (hchk.mp hc) a han hmem
        · exact h p a (by omega) han hmem
      · intro h p a hp han hmem
        exact h p a (by omega) han hmem
    · rw [if_neg hc]
      constructor
      · intro h
        exact absurd h (by simp)
      · intro h
        exact absurd (hchk.mpr (fun a han hmem => h k a (by omega) han hmem)) hc

/-- C9: `isOpwiseShiftValid` returns `true` exactly when, for every body
operation `p` and every in-body ancestor `a` of a user of one of `p`'s
results, the shifts of `p` and `a` agree — a single mismatch yields
`false`.  The right-hand side does not mention `outside`, so uses whose
ancestor lies outside the body are never checked.  The hypotheses record
the source's assert (`shifts.size() == body size`) and SSA dominance
(a producer precedes every in-body ancestor of its users). -/
theorem c9_shift_validity (body : List OpTree) (outside : List Nat)
    (shifts : List Nat) (_hlen : shifts.length = body.length)
    (hdom : ∀ p a, a < body.length → p ∈ treeUses (body.getD a default) →
      p ≤ a) :
    isOpwiseShiftValid body outside shifts = true ↔
      ∀ p a, a < body.length → p ∈ treeUses (body.getD a default) →
        shifts.getD p 0 = shifts.getD a 0 := by
  rw [isOpwiseShiftValid,
    shiftGo_iff body outside shifts hdom body.length [] le_rfl
      (by intro a h1 h2; omega)]
  constructor
  · intro h p a han hmem
    exact h p a (lt_of_le_of_lt (hdom p a han hmem) han) han hmem
  · intro h p a hp han hmem
    exact h p a han hmem

/-- Witness for C9: a two-operation body in which the second operation uses
the first's result and both carry shift 2 is accepted. -/
theorem c9_witness :
    isOpwiseShiftValid [OpTree.mk [] .nil, OpTree.mk [0] .nil] [] [2, 2] =
      true :=
  (c9_shift_validity [OpTree.mk [] .nil, OpTree.mk [0] .nil] [] [2, 2]
    (by decide)
    (by
      intro p a ha hm
      have ha2 : a < 2 := by simpa using ha
      interval_cases a
      · simp [treeUses, forestUses] at hm
      · simp [treeUses, forestUses] at hm
        omega)).mpr
    (by
      intro p a ha hm
      have ha2 : a < 2 := by simpa using ha
      interval_cases a
      · simp [treeUses, forestUses] at hm
      · simp [treeUses, forestUses] at hm
        subst hm
        rfl)

/-! ## Claim C6 -/

theorem promoteGo_spec (oldSyms : Nat) (l : List Value) :
    ∀ d s : Nat,
    promoteGo oldSyms l d s =
      ((List.range l.length).map (fun i =>
          if isValidSymbol1 (l.getD i default) then
            AffineExpr.sym (oldSyms + s + (l.take i).countP isValidSymbol1)
          else
            AffineExpr.dim (d + i - (l.take i).countP isValidSymbol1)),
       l.filter (fun v => !isValidSymbol1 v),
       l.filter isValidSymbol1,
       d + l.countP (fun v => !isValidSymbol1 v),
       s + l.countP isValidSymbol1) := by
  induction l with
  | nil => intro d s; simp [promoteGo]
  | cons v vs ih =>
    intro d s
    have hcount : ∀ i, i < vs.length →
        (vs.take i).countP isValidSymbol1 ≤ i := by
      intro i hi
      calc (vs.take i).countP isValidSymbol1 ≤ (vs.take i).length :=
            List.countP_le_length _
        _ ≤ i := by simp [List.length_take]
    by_cases hv : isValidSymbol1 v = true
    · rw [promoteGo, if_pos hv, ih d (s + 1)]
      refine Prod.ext ?_ (Prod.ext ?_ (Prod.ext ?_ (Prod.ext ?_ ?_))) <;>
        simp only
      · rw [List.length_cons, List.range_succ_eq_map, List.map_cons,
          List.map_map]
        refine List.cons_eq_cons.mpr ⟨?_, ?_⟩
        · simp [hv]
        · refine List.map_congr_left ?_
          intro i hi
          have hig := List.mem_range.mp hi
          simp only [Function.comp, List.getD_cons_succ, List.take_succ_cons,
            List.countP_cons_of_pos _ _ (by simpa using hv)]
          by_cases hvi : isValidSymbol1 (vs.getD i default) = true
          · rw [if_pos hvi, if_pos hvi]
            congr 1
            omega
          · rw [if_neg hvi, if_neg hvi]
            congr 1
            have := hcount i hig
            omega
      · simp [List.filter_cons, hv]
      · simp [List.filter_cons, hv]
      · simp [List.countP_cons, hv]
      · simp [List.countP_cons, hv]
        omega
    · rw [promoteGo, if_neg hv, ih (d + 1) s]
      refine Prod.ext ?_ (Prod.ext ?_ (Prod.ext ?_ (Prod.ext ?_ ?_))) <;>
        simp only
      · rw [List.length_cons, List.range_succ_eq_map, List.map_cons,
          List.map_map]
        refine List.cons_eq_cons.mpr ⟨?_, ?_⟩
        · simp [hv]
        · refine List.map_congr_left ?_
          intro i hi
          have hig := List.mem_range.mp hi
          simp only [Function.comp, List.getD_cons_succ, List.take_succ_cons,
            List.countP_cons_of_neg _ _ (by simpa using hv)]
          by_cases hvi : isValidSymbol1 (vs.getD i default) = true
          · rw [if_pos hvi, if_pos hvi]
          · rw [if_neg hvi, if_neg hvi]
            congr 1
            have := hcount i hig
            omega
      · simp [List.filter_cons, hv]
      · simp [List.filter_cons, hv]
      · simp [List.countP_cons, hv]
        omega
      · simp [List.countP_cons, hv]

theorem isValidSymbol2_constantOp (pr : Option Region) (c : Int)
    (r : Option Region) :
    isValidSymbol2 (.opResult true pr (.constantOp c)) r = true := by
  simp [isValidSymbol2.eq_def, Value.isIndex]

theorem isValidSymbol1_constantOp (pr : Option Region) (c : Int) :
    isValidSymbol1 (.opResult true pr (.constantOp c)) = true := by
  simp [isValidSymbol1, Value.isIndex, isValidSymbol2_constantOp]

/-- C6: in symbol promotion, a dimension position is rewritten to a freshly
appended symbol — its operand moving to the symbol tail, the kept
dimensions renumbered densely — exactly when its operand satisfies the
scope-free symbol predicate `isValidSymbol1`; and the map
`(numDims 1, numSymbols 0, result dim0 * 2)` applied to a constant operand
canonicalizes to the constant map `2 * c` with no inputs left. -/
theorem c6_symbol_promotion :
    (∀ (m : AffineMap) (operands : List Value), operands ≠ [] →
      canonicalizePromotedSymbols m operands =
        (m.replaceDimsAndSymbols
          (((List.range (operands.take m.numDims).length).map (fun i =>
            if isValidSymbol1 ((operands.take m.numDims).getD i default) then
              AffineExpr.sym (m.numSyms +
                ((operands.take m.numDims).take i).countP isValidSymbol1)
            else
              AffineExpr.dim (i -
                ((operands.take m.numDims).take i).countP isValidSymbol1))).map
            some)
          []
          ((operands.take m.numDims).countP (fun v => !isValidSymbol1 v))
          (m.numSyms + (operands.take m.numDims).countP isValidSymbol1),
         (operands.take m.numDims).filter (fun v => !isValidSymbol1 v) ++
           operands.drop m.numDims ++
           (operands.take m.numDims).filter isValidSymbol1)) ∧
    (∀ (c : Int) (pr : Option Region),
      canonicalizeMapAndOperands ⟨1, 0, [.mul (.dim 0) 2]⟩
          [.opResult true pr (.constantOp c)] =
        (⟨0, 0, [.const (c * 2)]⟩, [])) := by
  constructor
  · intro m operands hne
    rw [canonicalizePromotedSymbols, if_neg (by simpa using hne)]
    simp only [promoteGo_spec m.numSyms (operands.take m.numDims) 0 0]
    simp
  · intro c pr
    have hsym := isValidSymbol1_constantOp pr c
    simp [canonicalizeMapAndOperands, canonicalizePromotedSymbols, promoteGo,
      hsym, dimPassGo, symPassGo, getConstVal, AffineMap.replaceDimsAndSymbols,
      replaceDS, mulE, exprUsesSym, exprUsesDim, lookupSeen]

/-- Witness for C6: promoting the constant operand of `(d0) -> (d0 * 2)`
turns the dimension into a fresh symbol and moves the operand to the
symbol tail. -/
theorem c6_witness :
    canonicalizePromotedSymbols ⟨1, 0, [.mul (.dim 0) 2]⟩
        [.opResult true none (.constantOp 7)] =
      (⟨0, 1, [.mul (.sym 0) 2]⟩, [.opResult true none (.constantOp 7)]) := by
  have h := c6_symbol_promotion.1 ⟨1, 0, [.mul (.dim 0) 2]⟩
    [.opResult true none (.constantOp 7)] (by decide)
  rw [h]
  decide

/-! ## Claim C8 -/

/-- C8 (amended): `canonicalizeMapOrSetAndOperands` itself returns no
signal (it is `void`); the failure signal lives in
`AffineValueMap::canonicalize`, which returns failure exactly when the
full composition pipeline `composeAffineMapAndOperands` — apply-inlining
to a fixpoint, then the four canonicalization steps, then simplification —
leaves the `(map, operands)` pair unchanged. -/
theorem c8_canonicalize_failure_iff (avm : AffineValueMap) :
    (AffineValueMap.canonicalize avm).1 = false ↔
      composeAffineMapAndOperands avm.map avm.operands =
        (avm.map, avm.operands) := by
  simp only [AffineValueMap.canonicalize]
  by_cases h : (composeAffineMapAndOperands avm.map avm.operands).1 = avm.map ∧
      (composeAffineMapAndOperands avm.map avm.operands).2 = avm.operands
  · rw [if_pos h]
    simp [Prod.ext_iff, h.1, h.2]
  · rw [if_neg h]
    constructor
    · intro hfalse
      exact absurd hfalse (by simp)
    · intro hcomp
      exact absurd ⟨by rw [hcomp], by rw [hcomp]⟩ h

theorem composeLoop_step (m : AffineMap) (d s : List (Option Value))
    (m' : AffineMap) (d' s' : List (Option Value))
    (h : findReplace m d s = some (m', d', s')) :
    composeLoop m d s = composeLoop m' d' s' := by
  rw [composeLoop.eq_def]
  split
  · rename_i heq
    rw [h] at heq
    exact Option.noConfusion heq
  · rename_i m2 d2 s2 heq
    rw [h] at heq
    obtain ⟨h1, h2, h3⟩ := by
      simpa using heq
    rw [h1, h2, h3]

theorem composeLoop_last (m : AffineMap) (d s : List (Option Value))
    (h : findReplace m d s = none) :
    composeLoop m d s = (m, d, s) := by
  rw [composeLoop.eq_def]
  split
  · rfl
  · rename_i m2 d2 s2 heq
    rw [h] at heq
    exact Option.noConfusion heq

theorem composeAffine_of_loop (m : AffineMap) (operands : List Value)
    (hm : ¬m.results.length = 0)
    (m1 : AffineMap) (dims1 syms1 : List (Option Value))
    (hl : composeLoop m ((operands.take m.numDims).map some)
        ((operands.drop m.numDims).map some) = (m1, dims1, syms1)) :
    composeAffineMapAndOperands m operands =
      (let (dimRepl, dimOps, nDims) := pruneGo .dim dims1 0
       let (symRepl, symOps, nSyms) := pruneGo .sym syms1 0
       let m2 := m1.replaceDimsAndSymbols dimRepl symRepl nDims nSyms
       let c := canonicalizeMapAndOperands m2 (dimOps ++ symOps)
       (simplifyAffineMap c.1, c.2)) := by
  rw [composeAffineMapAndOperands, if_neg hm]
  simp only [hl]

/-- The region directly under a function-like operation (`AffineScope`,
`IsIsolatedFromAbove`). -/
def c8FuncRegion : Region := .rootChild 0 true true false

/-- The body region of an `affine.for` nested in `c8FuncRegion`. -/
def c8ForBody : Region := .child 1 false false true c8FuncRegion

/-- The loop's induction variable: not a valid symbol. -/
def c8ExW : Value := .blockArg true (some c8ForBody) 0

/-- An apply of `(d0) -> (d0 + 1)` to the induction variable. -/
def c8ExApply : Value :=
  .opResult true (some c8ForBody)
    (.applyOp ⟨1, 0, [.add (.dim 0) (.const 1)]⟩ (.cons c8ExW .nil))

/-- Counterexample for C8 as stated: on the pair
`((d0) -> (d0), [apply (d0 -> d0 + 1) iv])` none of the four
canonicalization steps changes anything (`canonicalizeMapAndOperands` is
the identity on it), yet the canonicalization entry point reports success
(`failure = false` does not hold), because apply-inlining composition does
change the pair. -/
theorem c8_counterexample :
    canonicalizeMapAndOperands ⟨1, 0, [.dim 0]⟩ [c8ExApply] =
      (⟨1, 0, [.dim 0]⟩, [c8ExApply]) ∧
    (AffineValueMap.canonicalize ⟨⟨1, 0, [.dim 0]⟩, [c8ExApply]⟩).1 = true := by
  constructor
  · decide
  · have h1 : findReplace ⟨1, 0, [.dim 0]⟩ [some c8ExApply] [] =
        some (⟨1, 0, [.add (.dim 1) (.const 1)]⟩, [none, some c8ExW], []) := by
      decide
    have h2 : findReplace ⟨1, 0, [.add (.dim 1) (.const 1)]⟩
        [none, some c8ExW] [] = none := by
      decide
    have hloop : composeLoop ⟨1, 0, [.dim 0]⟩ [some c8ExApply] [] =
        (⟨1, 0, [.add (.dim 1) (.const 1)]⟩, [none, some c8ExW], []) := by
      rw [composeLoop_step _ _ _ _ _ _ h1, composeLoop_last _ _ _ h2]
    have hcomp : composeAffineMapAndOperands ⟨1, 0, [.dim 0]⟩ [c8ExApply] =
        (⟨1, 0, [.add (.dim 0) (.const 1)]⟩, [c8ExW]) := by
      rw [composeAffine_of_loop ⟨1, 0, [.dim 0]⟩ [c8ExApply] (by decide)
        ⟨1, 0, [.add (.dim 1) (.const 1)]⟩ [none, some c8ExW] [] hloop]
      decide
    simp only [AffineValueMap.canonicalize, hcomp]
    decide

end MLIR
